import Mathlib

/-!
Shallow embedding of the manual assembler of `src/lib.rs`
(`ManualItem`, `process_manual` and its inner helpers `stem_chars` and the
section-name building loop).

Modelling conventions:
* The filesystem is the map `read_dir` consults: a `Disk` sends a directory
  path to its listing, `none` standing for an io error.  A listing entry
  carries its full `path` and its file `stem` (`file_stem`: the file name
  without its extension).  Entries of one directory share no path, and the
  `PathBuf` order on entries of one directory is the lexicographic order of
  their path strings, which the model compares directly.
* Every `unwrap` of the source (a failed `read_dir`, an empty stem, a stem
  with no decodable name character) is a panic; panics are modelled by
  `Option`, `none` meaning the run aborts and returns nothing.
* The `usize` subtraction `dirs.len() - 1` underflows when the listing is
  empty; with overflow checks this is a panic, modelled by `none`.
* The accumulator threaded through the callbacks is generalised from
  `String` to an arbitrary type `σ`, so that traces of calls can be
  observed by instantiation; the source fixes `σ = String` and seeds it
  with `start_string.to_owned()`.
-/

/-- Mirror of `pub enum ManualItem { Regular, Tool, Texture }`. -/
inductive ManualItem where
  | Regular
  | Tool
  | Texture
deriving DecidableEq, Repr

/-- Mirror of `impl From<char> for ManualItem`: `'S' | 'T' ↦ Tool`, `'X' ↦ Texture`,
anything else `↦ Regular`.  The comparisons are plain `==` on `char`, with
no case folding. -/
def ManualItem.fromChar (value : Char) : ManualItem :=
  if value = 'S' ∨ value = 'T' then ManualItem.Tool
  else if value = 'X' then ManualItem.Texture
  else ManualItem.Regular

/-- A directory entry as `read_dir` yields it: its full path and its file
stem. -/
structure FsEntry where
  path : String
  stem : String
deriving DecidableEq, Repr

/-- The observable filesystem: `std::fs::read_dir` keyed by directory path;
`none` is an io error (which the source unwraps: a panic). -/
abbrev Disk := String → Option (List FsEntry)

/-- The fixed root directory `PathBuf::from("docs/manual/")`. -/
def manualRoot : String := "docs/manual/"

/-- The `usize` subtraction `dirs.len() - 1`: underflow on an
empty listing is a panic (overflow-checked semantics). -/
def usizeSubOne (n : Nat) : Option Nat :=
  if n = 0 then none else some (n - 1)

/-- Mirror of `stem_chars`: consumes the first character of the stem (`next_value`,
panicking when the stem is empty), classifies it through
`ManualItem::from`, and returns the remaining characters after skipping
the leading non-alphabetic ones (`skip_while(|c| !c.is_alphabetic())`). -/
def stem_chars (stem : String) : Option (List Char × ManualItem) :=
  match stem.data with
  | [] => none
  | first :: rest =>
    some (rest.dropWhile (fun c => !c.isAlpha), ManualItem.fromChar first)

/-- The underscore translation of the section-name loop:
`if c == '_' { c = ' '; }`. -/
def underscoreToSpace (c : Char) : Char :=
  if c = '_' then ' ' else c

/-- The section-name construction of `process_manual`: take the next
character of the remainder (`next_value`, panicking when it is exhausted),
uppercase it (`to_ascii_uppercase`), then push the rest with underscores
turned into spaces. -/
def sectionNameString (chars : List Char) : Option String :=
  match chars with
  | [] => none
  | c :: rest => some (String.mk (c.toUpper :: rest.map underscoreToSpace))

/-- Decoding a section directory stem: `stem_chars` followed by the
name-building loop. -/
def decodeSection (stem : String) : Option (String × ManualItem) := do
  let (chars, item) ← stem_chars stem
  let name ← sectionNameString chars
  pure (name, item)

/-- Structural lexicographic comparison of character lists: true iff the
first list is less than or equal to the second in lexicographic order. -/
def lexLe : List Char → List Char → Bool
  | [], _ => true
  | _ :: _, [] => false
  | a :: as, b :: bs =>
    if a < b then true else if b < a then false else lexLe as bs

/-- Sorting a directory listing, `dirs.sort_unstable()`: sort by path.  (`PathBuf`
order on entries of one directory is their path-string order.)  The
unstable comparison sort of the source is modelled by insertion sort: on
listings with pairwise-distinct paths every comparison sort produces the
same, uniquely determined, sorted sequence. -/
def sortByPath (l : List FsEntry) : List FsEntry :=
  l.insertionSort (fun a b => lexLe a.path.data b.path.data = true)

/-- The four formatting callbacks of `process_manual`, acting on the
accumulator. -/
structure Callbacks (σ : Type) where
  section_start : σ → Bool → σ
  section_name : σ → String → ManualItem → σ
  process_file : σ → String → String → ManualItem → σ
  section_end : σ → σ

/-- The inner file loop of `process_manual`: for each file of the (already
sorted) listing, decode its stem and hand the name, path and kind to
`process_file`. -/
def processItems {σ : Type} (cb : Callbacks σ) (files : List FsEntry) (s : σ) :
    Option σ :=
  files.foldlM (fun s f => do
    let (chars, item) ← stem_chars f.stem
    pure (cb.process_file s (String.mk chars) f.path item)) s

/-- One iteration of the section loop of `process_manual`: `section_start`,
decode the directory stem, `section_name`, read and sort the directory,
process its files, `section_end`. -/
def processSection {σ : Type} (disk : Disk) (cb : Callbacks σ) (dir : FsEntry)
    (isLast : Bool) (s : σ) : Option σ := do
  let s := cb.section_start s isLast
  let (chars, item) ← stem_chars dir.stem
  let name ← sectionNameString chars
  let s := cb.section_name s name item
  let files ← disk dir.path
  let s ← processItems cb (sortByPath files) s
  pure (cb.section_end s)

/-- Mirror of `process_manual`: list the root `docs/manual/`, sort, note the last
index, and run the section loop.  `init` is the accumulator seeded from
`start_string`. -/
def process_manual {σ : Type} (disk : Disk) (init : σ) (cb : Callbacks σ) :
    Option σ := do
  let dirs ← disk manualRoot
  let dirs := sortByPath dirs
  let last_index ← usizeSubOne dirs.length
  dirs.enum.foldlM
    (fun s p => processSection disk cb p.2 (p.1 == last_index) s) init

/-- One callback invocation, with its arguments. -/
inductive Event where
  | section_start (isLast : Bool)
  | section_name (name : String) (kind : ManualItem)
  | process_file (name : String) (path : String) (kind : ManualItem)
  | section_end
deriving DecidableEq, Repr

/-- The `process_file` invocation a file produces. -/
def fileEvent (f : FsEntry) : Option Event := do
  let (chars, item) ← stem_chars f.stem
  pure (Event.process_file (String.mk chars) f.path item)

/-- Mapping a fallible function over a list, failing as soon as one
element fails. -/
def mapOpt {α β : Type} (f : α → Option β) : List α → Option (List β)
  | [] => some []
  | x :: xs => do
    let y ← f x
    let ys ← mapOpt f xs
    pure (y :: ys)

/-- The block of invocations one section produces: `section_start`,
`section_name`, its files in sorted order, `section_end`. -/
def sectionEvents (disk : Disk) (dir : FsEntry) (isLast : Bool) :
    Option (List Event) := do
  let (chars, item) ← stem_chars dir.stem
  let name ← sectionNameString chars
  let files ← disk dir.path
  let fileEvts ← mapOpt fileEvent (sortByPath files)
  pure (Event.section_start isLast ::
        Event.section_name name item :: (fileEvts ++ [Event.section_end]))

/-- The full sequence of callback invocations of a run: the blocks of the
sections, in sorted order, the last one flagged. -/
def callTrace (disk : Disk) : Option (List Event) := do
  let dirs ← disk manualRoot
  let dirs := sortByPath dirs
  let last_index ← usizeSubOne dirs.length
  let blocks ← mapOpt
    (fun p => sectionEvents disk p.2 (p.1 == last_index)) dirs.enum
  pure blocks.flatten

/-- Replay one recorded invocation against the callbacks. -/
def applyEvent {σ : Type} (cb : Callbacks σ) (s : σ) : Event → σ
  | Event.section_start b => cb.section_start s b
  | Event.section_name n k => cb.section_name s n k
  | Event.process_file n p k => cb.process_file s n p k
  | Event.section_end => cb.section_end s

/-- Replay a recorded trace against the callbacks. -/
def applyTrace {σ : Type} (cb : Callbacks σ) (s : σ) (tr : List Event) : σ :=
  tr.foldl (applyEvent cb) s

/-- Is the event a `section_start` invocation? -/
def Event.isStart : Event → Bool
  | Event.section_start _ => true
  | _ => false

/-- Is the event a `section_name` invocation? -/
def Event.isName : Event → Bool
  | Event.section_name _ _ => true
  | _ => false

/-- Is the event a `process_file` invocation? -/
def Event.isFile : Event → Bool
  | Event.process_file _ _ _ => true
  | _ => false

/-- Is the event a `section_end` invocation? -/
def Event.isEnd : Event → Bool
  | Event.section_end => true
  | _ => false

/-- The `is_last_section` flag of a `section_start` invocation. -/
def startFlag : Event → Option Bool
  | Event.section_start b => some b
  | _ => none

/-- The text appended over a trace by append-only callbacks, in call
order. -/
def appendedText (g : Event → String) : List Event → String
  | [] => ""
  | e :: tr => g e ++ appendedText g tr

/-- Append-only callbacks over the string accumulator: each invocation
appends a piece of text determined by its arguments. -/
def appendCallbacks (g : Event → String) : Callbacks String where
  section_start := fun s b => s ++ g (Event.section_start b)
  section_name := fun s n k => s ++ g (Event.section_name n k)
  process_file := fun s n p k => s ++ g (Event.process_file n p k)
  section_end := fun s => s ++ g Event.section_end

/-- A concrete root listing: two sections, handed back by the filesystem
in non-sorted order. -/
def exRoot : List FsEntry :=
  [⟨"docs/manual/B_two", "B_two"⟩, ⟨"docs/manual/A_one", "A_one"⟩]

/-- A concrete manual tree: sections `A_one` (items `1_alpha`, `2_beta`,
listed out of order) and `B_two` (no items). -/
def exampleDisk : Disk := fun p =>
  if p = manualRoot then some exRoot
  else if p = "docs/manual/A_one" then
    some [⟨"docs/manual/A_one/2_beta", "2_beta"⟩,
          ⟨"docs/manual/A_one/1_alpha", "1_alpha"⟩]
  else if p = "docs/manual/B_two" then some []
  else none

/-- The callback trace of `exampleDisk`. -/
def exTrace : List Event :=
  [Event.section_start false,
   Event.section_name "One" ManualItem.Regular,
   Event.process_file "alpha" "docs/manual/A_one/1_alpha" ManualItem.Regular,
   Event.process_file "beta" "docs/manual/A_one/2_beta" ManualItem.Regular,
   Event.section_end,
   Event.section_start true,
   Event.section_name "Two" ManualItem.Regular,
   Event.section_end]

/-- The "raw remainder" of an item stem, as the claim words it: the characters from the
first alphabetic character at or after position 1 onward, verbatim
(underscores kept, no capitalization).  Written from the words of the spec,
for comparison with the decoding of the source. -/
def rawRemainder (stem : String) : String :=
  String.mk ((stem.data.drop 1).dropWhile (fun c => !c.isAlpha))

/-- A disk whose root directory exists and is empty. -/
def emptyRootDisk : Disk := fun p =>
  if p = manualRoot then some [] else none

/-- A disk whose root read fails. -/
def rootFailDisk : Disk := fun _ => none

/-- A disk with one section whose listing read fails. -/
def sectionFailDisk : Disk := fun p =>
  if p = manualRoot then some [⟨"docs/manual/Asec", "Asec"⟩] else none

/-- Two optional listings that agree up to permutation. -/
def OptPerm : Option (List FsEntry) → Option (List FsEntry) → Prop
  | none, none => True
  | some a, some b => a.Perm b
  | _, _ => False

instance (o o' : Option (List FsEntry)) : Decidable (OptPerm o o') :=
  match o, o' with
  | none, none => Decidable.isTrue trivial
  | some a, some b => inferInstanceAs (Decidable (a.Perm b))
  | none, some _ => Decidable.isFalse (fun h => h)
  | some _, none => Decidable.isFalse (fun h => h)

/-- The tree of `exampleDisk` with both listings handed back in the other order. -/
def exampleDisk2 : Disk := fun p =>
  if p = manualRoot then
    some [⟨"docs/manual/A_one", "A_one"⟩, ⟨"docs/manual/B_two", "B_two"⟩]
  else if p = "docs/manual/A_one" then
    some [⟨"docs/manual/A_one/1_alpha", "1_alpha"⟩,
          ⟨"docs/manual/A_one/2_beta", "2_beta"⟩]
  else if p = "docs/manual/B_two" then some []
  else none

/-- Callbacks that, like arbitrary Rust closures, may also act on the
ambient filesystem: each invocation transforms the accumulator together
with the disk. -/
structure FsCallbacks (σ : Type) where
  section_start : σ × Disk → Bool → σ × Disk
  section_name : σ × Disk → String → ManualItem → σ × Disk
  process_file : σ × Disk → String → String → ManualItem → σ × Disk
  section_end : σ × Disk → σ × Disk

/-- The item loop of `process_manual`, with filesystem-acting
callbacks. -/
def processItemsFs {σ : Type} (cb : FsCallbacks σ) (files : List FsEntry)
    (sd : σ × Disk) : Option (σ × Disk) :=
  files.foldlM (fun sd f => do
    let (chars, item) ← stem_chars f.stem
    pure (cb.process_file sd (String.mk chars) f.path item)) sd

/-- One section iteration with filesystem-acting callbacks.  The
listing of the section is read from the *current* disk — after the
`section_start` and `section_name` invocations of this section, exactly as the source
calls `read_dir(&dir)` after them. -/
def processSectionFs {σ : Type} (cb : FsCallbacks σ) (dir : FsEntry)
    (isLast : Bool) (sd : σ × Disk) : Option (σ × Disk) := do
  let sd := cb.section_start sd isLast
  let (chars, item) ← stem_chars dir.stem
  let name ← sectionNameString chars
  let sd := cb.section_name sd name item
  let files ← sd.2 dir.path
  let sd ← processItemsFs cb (sortByPath files) sd
  pure (cb.section_end sd)

/-- Mirror of `process_manual` with filesystem-acting callbacks: the root listing
is read and sorted once from the initial disk, before any callback runs;
each section listing is read during the loop. -/
def process_manual_fs {σ : Type} (disk : Disk) (init : σ)
    (cb : FsCallbacks σ) : Option (σ × Disk) := do
  let dirs ← disk manualRoot
  let dirs := sortByPath dirs
  let last_index ← usizeSubOne dirs.length
  dirs.enum.foldlM
    (fun sd p => processSectionFs cb p.2 (p.1 == last_index) sd)
    (init, disk)

/-- Event-recording callbacks that leave the filesystem alone. -/
def recCallbacks : FsCallbacks (List Event) where
  section_start := fun sd b => (sd.1 ++ [Event.section_start b], sd.2)
  section_name := fun sd n k => (sd.1 ++ [Event.section_name n k], sd.2)
  process_file := fun sd n p k => (sd.1 ++ [Event.process_file n p k], sd.2)
  section_end := fun sd => (sd.1 ++ [Event.section_end], sd.2)

/-- Event-recording callbacks whose `section_start` additionally creates
a new file inside section `A_one` on disk. -/
def plantingCallbacks : FsCallbacks (List Event) where
  section_start := fun sd b =>
    (sd.1 ++ [Event.section_start b],
     fun p =>
       if p = "docs/manual/A_one" then
         some [⟨"docs/manual/A_one/2_beta", "2_beta"⟩,
               ⟨"docs/manual/A_one/1_alpha", "1_alpha"⟩,
               ⟨"docs/manual/A_one/0_planted", "0_planted"⟩]
       else sd.2 p)
  section_name := fun sd n k => (sd.1 ++ [Event.section_name n k], sd.2)
  process_file := fun sd n p k => (sd.1 ++ [Event.process_file n p k], sd.2)
  section_end := fun sd => (sd.1 ++ [Event.section_end], sd.2)

/-- The skeleton block of one enumerated section: its start flag, its
decoded name and its end. -/
def skelOf (li : Nat) (p : Nat × FsEntry) : Option (List Event) := do
  let (chars, item) ← stem_chars p.2.stem
  let name ← sectionNameString chars
  pure [Event.section_start (p.1 == li), Event.section_name name item,
        Event.section_end]

/-- The section-level events of a run — the start flags, decoded names
and ends — computed from the initial filesystem alone. -/
def sectionSkeleton (disk : Disk) : Option (List Event) := do
  let dirs ← disk manualRoot
  let dirs := sortByPath dirs
  let last_index ← usizeSubOne dirs.length
  let blocks ← mapOpt (skelOf last_index) dirs.enum
  pure blocks.flatten

theorem lexLe_iff_not_lex : ∀ (as bs : List Char),
    lexLe as bs = true ↔ ¬ List.Lex (· < ·) bs as := by
  intro as
  induction as with
  | nil =>
    intro bs
    simp only [lexLe]
    constructor
    · intro _ h
      cases h
    · intro _
      trivial
  | cons x xs ih =>
    intro bs
    cases bs with
    | nil =>
      simp only [lexLe]
      constructor
      · intro h
        simp at h
      · intro h
        exact absurd List.Lex.nil h
    | cons y ys =>
      by_cases hxy : x < y
      · simp only [lexLe, if_pos hxy]
        constructor
        · intro _ h
          cases h with
          | cons h' => exact absurd hxy (lt_irrefl x)
          | rel h' => exact absurd hxy (lt_asymm h')
        · intro _
          trivial
      · by_cases hyx : y < x
        · simp only [lexLe, if_neg hxy, if_pos hyx]
          constructor
          · intro h
            simp at h
          · intro h
            exact absurd (List.Lex.rel hyx) h
        · have hxe : x = y := le_antisymm (not_lt.mp hyx) (not_lt.mp hxy)
          subst hxe
          simp only [lexLe, if_neg hxy, if_neg hyx]
          rw [ih ys]
          constructor
          · intro h hcon
            cases hcon with
            | cons h' => exact h h'
            | rel h' => exact absurd h' (lt_irrefl x)
          · intro h hcon
            exact h (List.Lex.cons hcon)

/-- The comparison `lexLe` decides the lexicographic string order (the order `PathBuf`
comparison induces on the names of entries of one directory). -/
theorem lexLe_iff_le (a b : String) : lexLe a.data b.data = true ↔ a ≤ b := by
  rw [lexLe_iff_not_lex, String.le_iff_toList_le, ← not_lt]
  exact Iff.rfl

theorem processItems_eq {σ : Type} (cb : Callbacks σ) (files : List FsEntry) :
    ∀ s : σ, processItems cb files s =
      (mapOpt fileEvent files).map (fun es => es.foldl (applyEvent cb) s) := by
  induction files with
  | nil => intro s; rfl
  | cons f fs ih =>
    intro s
    cases h : stem_chars f.stem with
    | none =>
      simp [processItems, List.foldlM_cons, mapOpt, fileEvent, h]
    | some ci =>
      obtain ⟨chars, item⟩ := ci
      have hstep : processItems cb (f :: fs) s =
          processItems cb fs (cb.process_file s (String.mk chars) f.path item) := by
        simp [processItems, List.foldlM_cons, h]
      rw [hstep, ih]
      cases h2 : mapOpt fileEvent fs with
      | none => simp [mapOpt, fileEvent, h, h2]
      | some es => simp [mapOpt, fileEvent, h, h2, applyEvent]

theorem processSection_eq {σ : Type} (disk : Disk) (cb : Callbacks σ)
    (dir : FsEntry) (isLast : Bool) (s : σ) :
    processSection disk cb dir isLast s =
      (sectionEvents disk dir isLast).map (applyTrace cb s) := by
  simp only [processSection, sectionEvents, Option.bind_eq_bind,
    Option.map_eq_bind]
  cases h1 : stem_chars dir.stem with
  | none => rfl
  | some ci =>
    obtain ⟨chars, item⟩ := ci
    simp only [Option.some_bind]
    cases h2 : sectionNameString chars with
    | none => rfl
    | some name =>
      simp only [Option.some_bind]
      cases h3 : disk dir.path with
      | none => rfl
      | some files =>
        simp only [Option.some_bind,
          processItems_eq cb (sortByPath files), Option.map_eq_bind]
        cases h4 : mapOpt fileEvent (sortByPath files) with
        | none => rfl
        | some es =>
          simp [h4, applyTrace, applyEvent, List.foldl_append]

theorem foldlM_sections_eq {σ : Type} (disk : Disk) (cb : Callbacks σ)
    (li : Nat) (xs : List (Nat × FsEntry)) :
    ∀ s : σ,
      xs.foldlM (fun s p => processSection disk cb p.2 (p.1 == li) s) s =
        (mapOpt (fun p => sectionEvents disk p.2 (p.1 == li)) xs).map
          (fun bs => applyTrace cb s bs.flatten) := by
  induction xs with
  | nil => intro s; rfl
  | cons x xs ih =>
    intro s
    cases h : sectionEvents disk x.2 (x.1 == li) with
    | none =>
      have hstep : processSection disk cb x.2 (x.1 == li) s = none := by
        rw [processSection_eq, h]; rfl
      simp [List.foldlM_cons, mapOpt, hstep, h]
    | some blk =>
      have hstep : processSection disk cb x.2 (x.1 == li) s =
          some (applyTrace cb s blk) := by rw [processSection_eq, h]; rfl
      cases h2 : mapOpt (fun p => sectionEvents disk p.2 (p.1 == li)) xs with
      | none => simp [List.foldlM_cons, mapOpt, hstep, h, h2, ih]
      | some bs =>
        simp [List.foldlM_cons, mapOpt, hstep, h, h2, ih, applyTrace,
          List.foldl_append]

theorem mapOpt_forall₂ {α β : Type} (f : α → Option β) :
    ∀ {xs : List α} {ys : List β}, mapOpt f xs = some ys →
      List.Forall₂ (fun x y => f x = some y) xs ys := by
  intro xs
  induction xs with
  | nil =>
    intro ys h
    obtain rfl : ([] : List β) = ys := by simpa [mapOpt] using h
    exact List.Forall₂.nil
  | cons x xs ih =>
    intro ys h
    cases hfx : f x with
    | none => simp [mapOpt, hfx] at h
    | some y =>
      cases hmx : mapOpt f xs with
      | none => simp [mapOpt, hfx, hmx] at h
      | some ys' =>
        simp only [mapOpt, hfx, hmx, Option.some_bind] at h
        obtain rfl : y :: ys' = ys := by simpa using h
        exact List.Forall₂.cons hfx (ih hmx)

theorem mapOpt_mem_right {α β : Type} (f : α → Option β)
    {xs : List α} {ys : List β} (h : mapOpt f xs = some ys) :
    ∀ y ∈ ys, ∃ x ∈ xs, f x = some y := by
  have hf := mapOpt_forall₂ f h
  clear h
  induction hf with
  | nil => intro y hy; simp at hy
  | cons hr _ ih =>
    intro y hy
    rcases List.mem_cons.mp hy with rfl | hmem
    · exact ⟨_, List.mem_cons_self _ _, hr⟩
    · obtain ⟨x, hx, hfx⟩ := ih y hmem
      exact ⟨x, List.mem_cons_of_mem _ hx, hfx⟩

theorem mapOpt_eq_none_of_mem {α β : Type} (f : α → Option β) :
    ∀ {xs : List α} {x : α}, x ∈ xs → f x = none → mapOpt f xs = none := by
  intro xs
  induction xs with
  | nil => intro x h; simp at h
  | cons z zs ih =>
    intro x hmem hfx
    rcases List.mem_cons.mp hmem with rfl | hmem
    · simp [mapOpt, hfx]
    · cases hfz : f z with
      | none => simp [mapOpt, hfz]
      | some y => simp [mapOpt, hfz, ih hmem hfx]

theorem mapOpt_append {α β : Type} (f : α → Option β) :
    ∀ (xs zs : List α), mapOpt f (xs ++ zs) =
      (mapOpt f xs).bind (fun ys => (mapOpt f zs).map (fun ws => ys ++ ws)) := by
  intro xs zs
  induction xs with
  | nil =>
    simp only [List.nil_append, mapOpt, Option.some_bind]
    cases mapOpt f zs <;> rfl
  | cons x xs ih =>
    cases hfx : f x with
    | none => simp [mapOpt, hfx]
    | some y =>
      cases hmx : mapOpt f xs with
      | none =>
        have hnone : mapOpt f (xs ++ zs) = none := by
          cases hmz : mapOpt f zs with
          | none => simp [ih, hmx, hmz]
          | some ws => simp [ih, hmx, hmz]
        simp [mapOpt, hfx, hmx, hnone]
      | some ys =>
        cases hmz : mapOpt f zs with
        | none =>
          have hnone : mapOpt f (xs ++ zs) = none := by simp [ih, hmx, hmz]
          simp [mapOpt, hfx, hmx, hmz, hnone]
        | some ws =>
          have hsome : mapOpt f (xs ++ zs) = some (ys ++ ws) := by
            simp [ih, hmx, hmz]
          simp [mapOpt, hfx, hmx, hmz, hsome]

/-- The simulation theorem: a run of `process_manual` is the replay of the
callback trace, which is a function of the filesystem alone. -/
theorem process_manual_eq_callTrace {σ : Type} (disk : Disk) (init : σ)
    (cb : Callbacks σ) :
    process_manual disk init cb = (callTrace disk).map (applyTrace cb init) := by
  simp only [process_manual, callTrace, Option.bind_eq_bind, Option.map_eq_bind]
  cases h1 : disk manualRoot with
  | none => rfl
  | some dirs =>
    simp only [Option.some_bind]
    cases h2 : usizeSubOne (sortByPath dirs).length with
    | none => rfl
    | some li =>
      simp only [Option.some_bind, foldlM_sections_eq disk cb li,
        Option.map_eq_bind]
      cases h3 : mapOpt
          (fun p => sectionEvents disk p.2 (p.1 == li)) (sortByPath dirs).enum with
      | none => rfl
      | some bs => rfl

theorem sortByPath_perm (l : List FsEntry) : (sortByPath l).Perm l :=
  List.perm_insertionSort _ l

theorem sortByPath_length (l : List FsEntry) :
    (sortByPath l).length = l.length :=
  (sortByPath_perm l).length_eq

theorem sortByPath_pairwise (l : List FsEntry) :
    (sortByPath l).Pairwise (fun a b => a.path ≤ b.path) := by
  haveI : IsTotal FsEntry (fun a b => lexLe a.path.data b.path.data = true) :=
    ⟨fun a b => by
      rw [lexLe_iff_le, lexLe_iff_le]
      exact le_total a.path b.path⟩
  haveI : IsTrans FsEntry (fun a b => lexLe a.path.data b.path.data = true) :=
    ⟨fun a b c hab hbc => by
      rw [lexLe_iff_le] at hab hbc ⊢
      exact le_trans hab hbc⟩
  exact (List.sorted_insertionSort _ l).imp (fun h => (lexLe_iff_le _ _).mp h)

theorem sortByPath_pairwise_lt (l : List FsEntry)
    (h : (l.map FsEntry.path).Nodup) :
    (sortByPath l).Pairwise (fun a b => a.path < b.path) := by
  have hle := sortByPath_pairwise l
  have hperm : ((sortByPath l).map FsEntry.path).Perm (l.map FsEntry.path) :=
    (sortByPath_perm l).map _
  have hnd : ((sortByPath l).map FsEntry.path).Nodup := hperm.nodup_iff.mpr h
  have hne : (sortByPath l).Pairwise (fun a b => a.path ≠ b.path) :=
    List.pairwise_map.mp hnd
  exact (hle.and hne).imp (fun hab => lt_iff_le_and_ne.mpr hab)

theorem sorted_nodup_perm_eq {l₁ l₂ : List FsEntry} (hp : l₁.Perm l₂)
    (h₁ : l₁.Pairwise (fun a b => a.path < b.path))
    (h₂ : l₂.Pairwise (fun a b => a.path < b.path)) :
    l₁ = l₂ := by
  have anti : IsAntisymm FsEntry (fun a b => a.path < b.path ∨ a = b) := by
    constructor
    intro a b hab hba
    rcases hab with h | h
    · rcases hba with h' | h'
      · exact absurd (lt_trans h h') (lt_irrefl _)
      · exact h'.symm
    · exact h
  exact @List.eq_of_perm_of_sorted _ _ anti _ _ hp
    (h₁.imp fun h => Or.inl h) (h₂.imp fun h => Or.inl h)

theorem sortByPath_eq_of_perm {l l' : List FsEntry} (hp : l.Perm l')
    (hnd : (l.map FsEntry.path).Nodup) : sortByPath l = sortByPath l' := by
  have hnd' : (l'.map FsEntry.path).Nodup := ((hp.map _).nodup_iff).mp hnd
  exact sorted_nodup_perm_eq
    ((sortByPath_perm l).trans (hp.trans (sortByPath_perm l').symm))
    (sortByPath_pairwise_lt l hnd) (sortByPath_pairwise_lt l' hnd')

theorem fileEvent_eq_some {f : FsEntry} {e : Event} (h : fileEvent f = some e) :
    ∃ first rest, f.stem.data = first :: rest ∧
      e = Event.process_file (String.mk (rest.dropWhile (fun c => !c.isAlpha)))
            f.path (ManualItem.fromChar first) := by
  unfold fileEvent stem_chars at h
  cases hs : f.stem.data with
  | nil => rw [hs] at h; simp at h
  | cons first rest =>
    rw [hs] at h
    simp only [Option.some_bind] at h
    exact ⟨first, rest, rfl, by simpa using h.symm⟩

theorem sectionEvents_eq_some {disk : Disk} {dir : FsEntry} {isLast : Bool}
    {blk : List Event} (h : sectionEvents disk dir isLast = some blk) :
    ∃ name item files fileEvts,
      decodeSection dir.stem = some (name, item) ∧
      disk dir.path = some files ∧
      mapOpt fileEvent (sortByPath files) = some fileEvts ∧
      blk = Event.section_start isLast :: Event.section_name name item ::
        (fileEvts ++ [Event.section_end]) := by
  unfold sectionEvents at h
  cases h1 : stem_chars dir.stem with
  | none => rw [h1] at h; simp at h
  | some ci =>
    obtain ⟨chars, item⟩ := ci
    rw [h1] at h
    simp only [Option.bind_eq_bind, Option.some_bind] at h
    cases h2 : sectionNameString chars with
    | none => rw [h2] at h; simp at h
    | some name =>
      rw [h2] at h
      simp only [Option.some_bind] at h
      cases h3 : disk dir.path with
      | none => rw [h3] at h; simp at h
      | some files =>
        rw [h3] at h
        simp only [Option.some_bind] at h
        cases h4 : mapOpt fileEvent (sortByPath files) with
        | none => rw [h4] at h; simp at h
        | some fes =>
          rw [h4] at h
          simp only [Option.some_bind] at h
          refine ⟨name, item, files, fes, ?_, ?_, h4, ?_⟩
          · simp [decodeSection, h1, h2]
          · rfl
          · simpa using h.symm

theorem sectionEvents_block_facts {disk : Disk} {dir : FsEntry}
    {isLast : Bool} {blk : List Event}
    (h : sectionEvents disk dir isLast = some blk) :
    blk.countP Event.isStart = 1 ∧ blk.countP Event.isName = 1 ∧
    blk.countP Event.isEnd = 1 ∧
    blk.countP Event.isFile = ((disk dir.path).getD []).length ∧
    blk.filterMap startFlag = [isLast] := by
  obtain ⟨name, item, files, fes, hdec, hdisk, hmap, rfl⟩ :=
    sectionEvents_eq_some h
  have hshape : ∀ e ∈ fes, ∃ n p k, e = Event.process_file n p k := by
    intro e he
    obtain ⟨f, _, hf⟩ := mapOpt_mem_right fileEvent hmap e he
    obtain ⟨first, rest, _, rfl⟩ := fileEvent_eq_some hf
    exact ⟨_, _, _, rfl⟩
  have hlen : fes.length = files.length := by
    have hl := (mapOpt_forall₂ fileEvent hmap).length_eq
    rw [← hl, sortByPath_length]
  have hS : fes.countP Event.isStart = 0 := by
    rw [List.countP_eq_zero]
    intro e he
    obtain ⟨n, p, k, rfl⟩ := hshape e he
    simp [Event.isStart]
  have hN : fes.countP Event.isName = 0 := by
    rw [List.countP_eq_zero]
    intro e he
    obtain ⟨n, p, k, rfl⟩ := hshape e he
    simp [Event.isName]
  have hE : fes.countP Event.isEnd = 0 := by
    rw [List.countP_eq_zero]
    intro e he
    obtain ⟨n, p, k, rfl⟩ := hshape e he
    simp [Event.isEnd]
  have hF : fes.countP Event.isFile = fes.length := by
    rw [List.countP_eq_length]
    intro e he
    obtain ⟨n, p, k, rfl⟩ := hshape e he
    simp [Event.isFile]
  have hFlag : fes.filterMap startFlag = [] := by
    rw [List.filterMap_eq_nil_iff]
    intro e he
    obtain ⟨n, p, k, rfl⟩ := hshape e he
    simp [startFlag]
  refine ⟨?_, ?_, ?_, ?_, ?_⟩
  · simp [List.countP_cons, hS, Event.isStart]
  · simp [List.countP_cons, hN, Event.isName]
  · simp [List.countP_cons, hE, Event.isEnd]
  · simp [List.countP_cons, hF, hlen, hdisk, Event.isFile]
  · simp [List.filterMap_cons, hFlag, startFlag]

theorem applyTrace_appendCallbacks (g : Event → String) :
    ∀ (tr : List Event) (s : String),
      applyTrace (appendCallbacks g) s tr = s ++ appendedText g tr := by
  intro tr
  induction tr with
  | nil => intro s; simp [applyTrace, appendedText]
  | cons e tr ih =>
    intro s
    have he : applyEvent (appendCallbacks g) s e = s ++ g e := by
      cases e <;> rfl
    calc applyTrace (appendCallbacks g) s (e :: tr)
        = applyTrace (appendCallbacks g) (s ++ g e) tr := by
          simp [applyTrace, he]
      _ = (s ++ g e) ++ appendedText g tr := ih _
      _ = s ++ appendedText g (e :: tr) := by
          rw [String.append_assoc]; rfl

theorem sum_map_ones {β : Type} (f : β → Nat) :
    ∀ (bs : List β), (∀ b ∈ bs, f b = 1) → (bs.map f).sum = bs.length := by
  intro bs
  induction bs with
  | nil => intro _; rfl
  | cons b bs ih =>
    intro h
    simp [h b (List.mem_cons_self b bs),
      ih (fun x hx => h x (List.mem_cons_of_mem b hx))]
    omega

theorem sum_map_forall₂ {α β : Type} {R : α → β → Prop}
    {xs : List α} {ys : List β} (h : List.Forall₂ R xs ys)
    (f : β → Nat) (g : α → Nat) (hfg : ∀ x y, R x y → f y = g x) :
    (ys.map f).sum = (xs.map g).sum := by
  induction h with
  | nil => rfl
  | cons hr _ ih => simp [hfg _ _ hr, ih]

theorem callTrace_eq_some {disk : Disk} {l : List FsEntry} {tr : List Event}
    (hroot : disk manualRoot = some l) (htr : callTrace disk = some tr) :
    l ≠ [] ∧
    ∃ blocks,
      mapOpt (fun p => sectionEvents disk p.2 (p.1 == l.length - 1))
        (sortByPath l).enum = some blocks ∧
      tr = blocks.flatten := by
  unfold callTrace at htr
  rw [hroot] at htr
  simp only [Option.bind_eq_bind, Option.some_bind] at htr
  cases hn : usizeSubOne (sortByPath l).length with
  | none => rw [hn] at htr; simp at htr
  | some li =>
    rw [hn] at htr
    simp only [Option.some_bind] at htr
    have hli : li = l.length - 1 ∧ l ≠ [] := by
      unfold usizeSubOne at hn
      by_cases h0 : (sortByPath l).length = 0
      · rw [if_pos h0] at hn; exact absurd hn (by simp)
      · rw [if_neg h0] at hn
        have hv : (sortByPath l).length - 1 = li := by simpa using hn
        refine ⟨by rw [← hv, sortByPath_length], ?_⟩
        intro hl
        apply h0
        rw [hl, sortByPath_length]
        rfl
    obtain ⟨rfl, hlne⟩ := hli
    cases hm : mapOpt
        (fun p => sectionEvents disk p.2 (p.1 == l.length - 1))
        (sortByPath l).enum with
    | none => rw [hm] at htr; simp at htr
    | some blocks =>
      rw [hm] at htr
      simp only [Option.some_bind] at htr
      exact ⟨hlne, blocks, rfl, by simpa using htr.symm⟩

/-- C1: for every directory tree (`N` sections listed at the root),
`process_manual` makes exactly `N` `section_start`, `section_name` and
`section_end` calls and one `process_file` call per item file; every run
replays the trace `tr` (per section in sorted order: start, then name,
then the items of that section in sorted order, then end); and with
append-only callbacks the returned string is `start_string` followed by
the text the callbacks appended, in that call order. -/
theorem c1_calls_and_output (disk : Disk) (l : List FsEntry)
    (tr : List Event) (hroot : disk manualRoot = some l)
    (htr : callTrace disk = some tr) :
    tr.countP Event.isStart = l.length ∧
    tr.countP Event.isName = l.length ∧
    tr.countP Event.isEnd = l.length ∧
    tr.countP Event.isFile =
      (l.map (fun d => ((disk d.path).getD []).length)).sum ∧
    (∀ (σ : Type) (init : σ) (cb : Callbacks σ),
      process_manual disk init cb = some (applyTrace cb init tr)) ∧
    (∀ (g : Event → String) (start_string : String),
      process_manual disk start_string (appendCallbacks g) =
        some (start_string ++ appendedText g tr)) := by
  obtain ⟨hlne, blocks, hm, htrf⟩ := callTrace_eq_some hroot htr
  subst htrf
  have hforall := mapOpt_forall₂ _ hm
  have hblen : blocks.length = l.length := by
    rw [← hforall.length_eq, List.enum_length, sortByPath_length]
  have hmem : ∀ b ∈ blocks, ∃ q : Nat × FsEntry,
      sectionEvents disk q.2 (q.1 == l.length - 1) = some b := by
    intro b hb
    obtain ⟨q, _, hq⟩ := mapOpt_mem_right _ hm b hb
    exact ⟨q, hq⟩
  have hcount : ∀ (p : Event → Bool), (∀ b ∈ blocks, b.countP p = 1) →
      blocks.flatten.countP p = l.length := by
    intro p h1
    rw [List.countP_flatten, sum_map_ones _ blocks h1, hblen]
  refine ⟨?_, ?_, ?_, ?_, ?_, ?_⟩
  · exact hcount _ (fun b hb => by
      obtain ⟨q, hq⟩ := hmem b hb
      exact (sectionEvents_block_facts hq).1)
  · exact hcount _ (fun b hb => by
      obtain ⟨q, hq⟩ := hmem b hb
      exact (sectionEvents_block_facts hq).2.1)
  · exact hcount _ (fun b hb => by
      obtain ⟨q, hq⟩ := hmem b hb
      exact (sectionEvents_block_facts hq).2.2.1)
  · rw [List.countP_flatten]
    have h1 : (blocks.map (List.countP Event.isFile)).sum =
        ((sortByPath l).enum.map
          (fun q => ((disk q.2.path).getD []).length)).sum :=
      sum_map_forall₂ hforall _ _
        (fun q b hqb => (sectionEvents_block_facts hqb).2.2.2.1)
    rw [h1]
    have h2 : (sortByPath l).enum.map
        (fun q => ((disk q.2.path).getD []).length) =
        ((sortByPath l).enum.map Prod.snd).map
          (fun d => ((disk d.path).getD []).length) := by
      rw [List.map_map]
      rfl
    have h3 : (sortByPath l).enum.map Prod.snd = sortByPath l :=
      List.enumFrom_map_snd 0 (sortByPath l)
    rw [h2, h3]
    exact ((sortByPath_perm l).map _).sum_eq
  · intro σ init cb
    rw [process_manual_eq_callTrace, htr]
    rfl
  · intro g s
    rw [process_manual_eq_callTrace, htr]
    simp [applyTrace_appendCallbacks]

/-- Witness for C1: the hypotheses hold at `exampleDisk`, and the counts
follow for its two sections and two items. -/
theorem c1_calls_and_output_witness :
    exTrace.countP Event.isStart = exRoot.length ∧
    exTrace.countP Event.isFile =
      (exRoot.map (fun d => ((exampleDisk d.path).getD []).length)).sum := by
  have h := c1_calls_and_output exampleDisk exRoot exTrace
    (by decide) (by decide)
  exact ⟨h.1, h.2.2.2.1⟩

/-- C2 counterexample: the classification is case-sensitive.  A stem
beginning with lowercase 's' is classified `Regular`, not `Tool` as the
case-insensitive rule of the claim requires. -/
theorem c2_counterexample :
    stem_chars "sfoo" = some (['f', 'o', 'o'], ManualItem.Regular) ∧
    ManualItem.Regular ≠ ManualItem.Tool := by
  constructor
  · rfl
  · decide

/-- C2 (amended): the `ItemKind` derived from a stem is determined by the
first character of the stem, case-sensitively: 'S' and 'T' give `Tool`, 'X'
gives `Texture`, and every other character — lowercase 's', 't', 'x'
included — gives `Regular`. -/
theorem c2_kind_case_sensitive :
    (∀ (stem : String) (first : Char) (rest : List Char),
      stem.data = first :: rest →
      (stem_chars stem).map Prod.snd = some (ManualItem.fromChar first)) ∧
    ManualItem.fromChar 'S' = ManualItem.Tool ∧
    ManualItem.fromChar 'T' = ManualItem.Tool ∧
    ManualItem.fromChar 'X' = ManualItem.Texture ∧
    ManualItem.fromChar 's' = ManualItem.Regular ∧
    ManualItem.fromChar 't' = ManualItem.Regular ∧
    ManualItem.fromChar 'x' = ManualItem.Regular ∧
    (∀ c : Char, c ≠ 'S' → c ≠ 'T' → c ≠ 'X' →
      ManualItem.fromChar c = ManualItem.Regular) := by
  refine ⟨?_, rfl, rfl, rfl, rfl, rfl, rfl, ?_⟩
  · intro stem first rest h
    simp [stem_chars, h]
  · intro c h1 h2 h3
    unfold ManualItem.fromChar
    rw [if_neg (by rintro (h | h) <;> contradiction), if_neg h3]

/-- Witness for C2 (amended): evaluation at the stems `"Sfoo"` and the
character 'q'. -/
theorem c2_kind_case_sensitive_witness :
    (stem_chars "Sfoo").map Prod.snd = some ManualItem.Tool ∧
    ManualItem.fromChar 'q' = ManualItem.Regular := by
  constructor
  · have h := c2_kind_case_sensitive.1 "Sfoo" 'S' ['f', 'o', 'o'] rfl
    rw [h]
    rfl
  · exact c2_kind_case_sensitive.2.2.2.2.2.2.2 'q'
      (by decide) (by decide) (by decide)

/-- C3 counterexample: the stem `"normal_name"` decodes to display name
`"Ormal name"`, not `"Normal name"`: the first character of the stem is
always consumed as the classification character before the display name
is built, even for `Regular` stems. -/
theorem c3_counterexample :
    decodeSection "normal_name" = some ("Ormal name", ManualItem.Regular) ∧
    ("Ormal name" : String) ≠ "Normal name" := by
  constructor
  · rfl
  · decide

/-- C3 (amended): a section stem is decoded by consuming the leading
classification character, skipping to the next alphabetic character,
uppercasing it and translating the following underscores to spaces; in
particular `"normal_name"` gives kind `Regular` and display name
`"Ormal name"`. -/
theorem c3_section_name_decoding :
    (∀ (stem : String) (k c : Char) (rest cs : List Char),
      stem.data = k :: rest →
      rest.dropWhile (fun x => !x.isAlpha) = c :: cs →
      decodeSection stem = some
        (String.mk (c.toUpper :: cs.map underscoreToSpace),
         ManualItem.fromChar k)) ∧
    decodeSection "normal_name" = some ("Ormal name", ManualItem.Regular) := by
  refine ⟨?_, rfl⟩
  intro stem k c rest cs h1 h2
  simp [decodeSection, stem_chars, sectionNameString, h1, h2]

/-- Witness for C3 (amended): evaluation at the stem `"Sfoo"`. -/
theorem c3_section_name_decoding_witness :
    decodeSection "Sfoo" = some ("Foo", ManualItem.Tool) := by
  have h := c3_section_name_decoding.1 "Sfoo" 'S' 'f' ['f', 'o', 'o'] ['o', 'o']
    rfl rfl
  rw [h]
  rfl

/-- C8: the display name handed to `process_file` for an item file is the
raw remainder of the stem of the file — no capitalization applied and
underscores preserved as-is, unlike section display names. -/
theorem c8_item_name_raw (f : FsEntry) (e : Event)
    (h : fileEvent f = some e) :
    ∃ kind, e = Event.process_file (rawRemainder f.stem) f.path kind := by
  obtain ⟨first, rest, hdata, rfl⟩ := fileEvent_eq_some h
  refine ⟨ManualItem.fromChar first, ?_⟩
  unfold rawRemainder
  rw [hdata]
  simp

/-- Witness for C8: the item stem `"1_alpha_beta"` displays as
`"alpha_beta"`: lowercase kept, inner underscore kept. -/
theorem c8_item_name_raw_witness :
    ∃ kind, (Event.process_file "alpha_beta" "p" ManualItem.Regular) =
      Event.process_file (rawRemainder "1_alpha_beta") "p" kind :=
  c8_item_name_raw ⟨"p", "1_alpha_beta"⟩
    (Event.process_file "alpha_beta" "p" ManualItem.Regular) (by decide)

/-- C10: an existing but empty root manual directory makes the run
panic — `dirs.len() - 1` underflows — instead of returning
`start_string` with zero callback invocations. -/
theorem c10_empty_root_panics (disk : Disk)
    (hroot : disk manualRoot = some []) :
    ∀ (σ : Type) (init : σ) (cb : Callbacks σ),
      process_manual disk init cb = none ∧
      process_manual disk init cb ≠ some init := by
  intro σ init cb
  have h : process_manual disk init cb = none := by
    unfold process_manual
    rw [hroot]
    rfl
  exact ⟨h, by rw [h]; simp⟩

/-- Witness for C10: the empty-rooted disk. -/
theorem c10_empty_root_panics_witness :
    process_manual emptyRootDisk "seed"
      (appendCallbacks (fun _ => "x")) = none ∧
    process_manual emptyRootDisk "seed"
      (appendCallbacks (fun _ => "x")) ≠ some "seed" :=
  c10_empty_root_panics emptyRootDisk (by decide) String "seed"
    (appendCallbacks (fun _ => "x"))

theorem sectionEvents_none_of_read_none {disk : Disk} {dir : FsEntry}
    (h : disk dir.path = none) (isLast : Bool) :
    sectionEvents disk dir isLast = none := by
  unfold sectionEvents
  cases h1 : stem_chars dir.stem with
  | none => rfl
  | some ci =>
    obtain ⟨chars, item⟩ := ci
    simp only [Option.bind_eq_bind, Option.some_bind]
    cases h2 : sectionNameString chars with
    | none => rfl
    | some name =>
      simp only [Option.some_bind]
      rw [h]
      rfl

/-- C6: a failed read of the root directory aborts the run — the result
is `none` whatever the callbacks and the seed are, so no callback can
have contributed output; and a failed read of any section subdirectory
likewise aborts the whole run, returning no output string at all. -/
theorem c6_read_failures_abort (disk : Disk) :
    (disk manualRoot = none →
      ∀ (σ : Type) (init : σ) (cb : Callbacks σ),
        process_manual disk init cb = none) ∧
    (∀ l, disk manualRoot = some l →
      ∀ e ∈ l, disk e.path = none →
      ∀ (σ : Type) (init : σ) (cb : Callbacks σ),
        process_manual disk init cb = none) := by
  constructor
  · intro h σ init cb
    unfold process_manual
    rw [h]
    rfl
  · intro l hroot e hmem hnone σ init cb
    rw [process_manual_eq_callTrace]
    have htr : callTrace disk = none := by
      unfold callTrace
      rw [hroot]
      simp only [Option.bind_eq_bind, Option.some_bind]
      cases hn : usizeSubOne (sortByPath l).length with
      | none => rfl
      | some li =>
        simp only [Option.some_bind]
        have hmem' : e ∈ (sortByPath l).enum.map Prod.snd := by
          have hsnd : (sortByPath l).enum.map Prod.snd = sortByPath l :=
            List.enumFrom_map_snd 0 (sortByPath l)
          rw [hsnd]
          exact (sortByPath_perm l).mem_iff.mpr hmem
        obtain ⟨p, hp, hpe⟩ := List.mem_map.mp hmem'
        have : sectionEvents disk p.2 (p.1 == li) = none := by
          rw [hpe]
          exact sectionEvents_none_of_read_none hnone _
        rw [mapOpt_eq_none_of_mem _ hp this]
        rfl
    rw [htr]
    rfl

/-- Witness for C6: a failing root read and a failing section read. -/
theorem c6_read_failures_abort_witness :
    process_manual rootFailDisk (0 : Nat)
      ⟨fun s _ => s, fun s _ _ => s, fun s _ _ _ => s, fun s => s⟩ = none ∧
    process_manual sectionFailDisk (0 : Nat)
      ⟨fun s _ => s, fun s _ _ => s, fun s _ _ _ => s, fun s => s⟩ = none := by
  constructor
  · exact (c6_read_failures_abort rootFailDisk).1 (by rfl) Nat 0 _
  · exact (c6_read_failures_abort sectionFailDisk).2
      [⟨"docs/manual/Asec", "Asec"⟩] (by rfl)
      ⟨"docs/manual/Asec", "Asec"⟩ (by decide) (by rfl) Nat 0 _

theorem mapOpt_congr {α β : Type} {f g : α → Option β} :
    ∀ {xs : List α}, (∀ x ∈ xs, f x = g x) → mapOpt f xs = mapOpt g xs := by
  intro xs
  induction xs with
  | nil => intro _; rfl
  | cons x xs ih =>
    intro h
    simp only [mapOpt, h x (List.mem_cons_self x xs),
      ih (fun y hy => h y (List.mem_cons_of_mem x hy))]

theorem sectionEvents_eq_of_perm {disk disk' : Disk} {dir : FsEntry}
    (hp : OptPerm (disk dir.path) (disk' dir.path))
    (hnd : ∀ fl, disk dir.path = some fl → (fl.map FsEntry.path).Nodup)
    (isLast : Bool) :
    sectionEvents disk dir isLast = sectionEvents disk' dir isLast := by
  cases h1 : disk dir.path with
  | none =>
    cases h2 : disk' dir.path with
    | none =>
      rw [sectionEvents_none_of_read_none h1,
          sectionEvents_none_of_read_none h2]
    | some fl' =>
      rw [h1, h2] at hp
      exact hp.elim
  | some fl =>
    cases h2 : disk' dir.path with
    | none =>
      rw [h1, h2] at hp
      exact hp.elim
    | some fl' =>
      rw [h1, h2] at hp
      have hsort : sortByPath fl = sortByPath fl' :=
        sortByPath_eq_of_perm hp (hnd fl h1)
      unfold sectionEvents
      rw [h1, h2]
      simp only [Option.bind_eq_bind, Option.some_bind]
      rw [hsort]

theorem callTrace_eq_of_perm {disk disk' : Disk} {l l' : List FsEntry}
    (hroot : disk manualRoot = some l) (hroot' : disk' manualRoot = some l')
    (hperm : l.Perm l') (hnd : (l.map FsEntry.path).Nodup)
    (hfiles : ∀ e ∈ l, OptPerm (disk e.path) (disk' e.path))
    (hfnd : ∀ e ∈ l, (((disk e.path).getD []).map FsEntry.path).Nodup) :
    callTrace disk = callTrace disk' := by
  have hsort : sortByPath l = sortByPath l' := sortByPath_eq_of_perm hperm hnd
  unfold callTrace
  rw [hroot, hroot']
  simp only [Option.bind_eq_bind, Option.some_bind]
  rw [← hsort]
  cases hn : usizeSubOne (sortByPath l).length with
  | none => rfl
  | some li =>
    simp only [Option.some_bind]
    have hcongr : mapOpt (fun p => sectionEvents disk p.2 (p.1 == li))
        (sortByPath l).enum =
        mapOpt (fun p => sectionEvents disk' p.2 (p.1 == li))
          (sortByPath l).enum := by
      apply mapOpt_congr
      intro p hp
      have hmem : p.2 ∈ l := by
        have hsnd : (sortByPath l).enum.map Prod.snd = sortByPath l :=
          List.enumFrom_map_snd 0 (sortByPath l)
        have : p.2 ∈ (sortByPath l).enum.map Prod.snd :=
          List.mem_map_of_mem Prod.snd hp
        rw [hsnd] at this
        exact (sortByPath_perm l).mem_iff.mp this
      exact sectionEvents_eq_of_perm (hfiles p.2 hmem)
        (fun fl hfl => by
          have := hfnd p.2 hmem
          rw [hfl] at this
          simpa using this) _
    rw [hcongr]

/-- C4: sections are processed in strictly increasing lexicographic order
of their directory paths and, within every section, item files are
processed in strictly increasing lexicographic order of their file
paths; the callback trace is unchanged when the filesystem returns
either listing in any other order. -/
theorem c4_lexicographic_order (disk disk' : Disk) (l l' : List FsEntry)
    (hroot : disk manualRoot = some l) (hroot' : disk' manualRoot = some l')
    (hperm : l.Perm l') (hnd : (l.map FsEntry.path).Nodup)
    (hfiles : ∀ e ∈ l, OptPerm (disk e.path) (disk' e.path))
    (hfnd : ∀ e ∈ l, (((disk e.path).getD []).map FsEntry.path).Nodup) :
    (sortByPath l).Pairwise (fun a b => a.path < b.path) ∧
    (∀ e ∈ l, ∀ fl, disk e.path = some fl →
      (sortByPath fl).Pairwise (fun a b => a.path < b.path)) ∧
    callTrace disk = callTrace disk' := by
  refine ⟨sortByPath_pairwise_lt l hnd, ?_, ?_⟩
  · intro e he fl hfl
    apply sortByPath_pairwise_lt
    have h := hfnd e he
    rw [hfl] at h
    simpa using h
  · exact callTrace_eq_of_perm hroot hroot' hperm hnd hfiles hfnd

/-- C9: assembly is deterministic: two runs against an unchanged tree —
same root entries and same per-section entries, in whatever order the
filesystem hands either listing back — produce the same callback trace
and hence the same output for every callback set and every seed. -/
theorem c9_deterministic (disk disk' : Disk) (l l' : List FsEntry)
    (hroot : disk manualRoot = some l) (hroot' : disk' manualRoot = some l')
    (hperm : l.Perm l') (hnd : (l.map FsEntry.path).Nodup)
    (hfiles : ∀ e ∈ l, OptPerm (disk e.path) (disk' e.path))
    (hfnd : ∀ e ∈ l, (((disk e.path).getD []).map FsEntry.path).Nodup) :
    ∀ (σ : Type) (init : σ) (cb : Callbacks σ),
      process_manual disk init cb = process_manual disk' init cb := by
  intro σ init cb
  rw [process_manual_eq_callTrace, process_manual_eq_callTrace,
    callTrace_eq_of_perm hroot hroot' hperm hnd hfiles hfnd]

/-- Witness for C4 at the example tree and its reordered listings. -/
theorem c4_lexicographic_order_witness :
    callTrace exampleDisk = callTrace exampleDisk2 :=
  (c4_lexicographic_order exampleDisk exampleDisk2 exRoot
    [⟨"docs/manual/A_one", "A_one"⟩, ⟨"docs/manual/B_two", "B_two"⟩]
    (by decide) (by decide) (by decide) (by decide) (by decide)
    (by decide)).2.2

/-- Witness for C9 at the example tree and its reordered listings. -/
theorem c9_deterministic_witness :
    process_manual exampleDisk "start" (appendCallbacks (fun _ => "!")) =
      process_manual exampleDisk2 "start" (appendCallbacks (fun _ => "!")) :=
  c9_deterministic exampleDisk exampleDisk2 exRoot
    [⟨"docs/manual/A_one", "A_one"⟩, ⟨"docs/manual/B_two", "B_two"⟩]
    (by decide) (by decide) (by decide) (by decide) (by decide) (by decide)
    String "start" (appendCallbacks (fun _ => "!"))

theorem map_eq_of_forall₂ {α β γ : Type} {R : α → β → Prop}
    {xs : List α} {ys : List β} (h : List.Forall₂ R xs ys)
    (f : β → γ) (g : α → γ) (hfg : ∀ x y, R x y → f y = g x) :
    ys.map f = xs.map g := by
  induction h with
  | nil => rfl
  | cons hr _ ih => simp [hfg _ _ hr, ih]

theorem filterMap_flatten {α β : Type} (f : α → Option β) :
    ∀ (ls : List (List α)),
      ls.flatten.filterMap f = (ls.map (List.filterMap f)).flatten := by
  intro ls
  induction ls with
  | nil => rfl
  | cons x ls ih => simp [List.filterMap_append, ih]

theorem flatten_singletons {α β : Type} (f : α → β) :
    ∀ (xs : List α), (xs.map (fun x => [f x])).flatten = xs.map f := by
  intro xs
  induction xs with
  | nil => rfl
  | cons x xs ih => simp [ih]

theorem range'_flags : ∀ (m j : Nat),
    (List.range' j (m + 1)).map (fun i => i == j + m) =
      List.replicate m false ++ [true] := by
  intro m
  induction m with
  | zero =>
    intro j
    simp [List.range']
  | succ m ih =>
    intro j
    rw [List.range'_succ]
    simp only [List.map_cons]
    have h1 : (j == j + (m + 1)) = false := by
      rw [beq_eq_false_iff_ne]
      omega
    have hfun : (fun i : Nat => i == j + (m + 1)) =
        (fun i => i == (j + 1) + m) := by
      funext i
      congr 1
      omega
    rw [h1, hfun, ih (j + 1)]
    rfl

theorem enumFrom_append_singleton {α : Type} :
    ∀ (xs : List α) (n : Nat) (x : α),
      (xs ++ [x]).enumFrom n = xs.enumFrom n ++ [(n + xs.length, x)] := by
  intro xs
  induction xs with
  | nil => intro n x; simp
  | cons y ys ih =>
    intro n x
    simp only [List.cons_append, List.enumFrom_cons, ih (n + 1),
      List.length_cons]
    have harith : n + 1 + ys.length = n + (ys.length + 1) := by omega
    rw [harith]

/-- C5: the `is_last_section` flag is true exactly once across the run:
false on every `section_start` call but the final one, and the final
call belongs to the section whose directory path is lexicographically
greatest. -/
theorem c5_last_flag (disk : Disk) (l : List FsEntry) (tr : List Event)
    (hroot : disk manualRoot = some l)
    (htr : callTrace disk = some tr) :
    tr.filterMap startFlag =
      List.replicate (l.length - 1) false ++ [true] ∧
    ∃ hne : sortByPath l ≠ [],
      (∀ e ∈ l, e.path ≤ ((sortByPath l).getLast hne).path) ∧
      ∃ pre blk,
        sectionEvents disk ((sortByPath l).getLast hne) true = some blk ∧
        tr = pre ++ blk := by
  obtain ⟨hlne, blocks, hm, htrf⟩ := callTrace_eq_some hroot htr
  subst htrf
  have hforall := mapOpt_forall₂ _ hm
  constructor
  · have hmapflags : blocks.map (List.filterMap startFlag) =
        (sortByPath l).enum.map (fun p => [(p.1 == l.length - 1)]) :=
      map_eq_of_forall₂ hforall _ _
        (fun p b hpb => (sectionEvents_block_facts hpb).2.2.2.2)
    rw [filterMap_flatten, hmapflags, flatten_singletons]
    have hcomp : (sortByPath l).enum.map (fun p => (p.1 == l.length - 1)) =
        ((sortByPath l).enum.map Prod.fst).map
          (fun i => i == l.length - 1) := by
      rw [List.map_map]
      rfl
    rw [hcomp]
    have hfst : (sortByPath l).enum.map Prod.fst =
        List.range' 0 (sortByPath l).length :=
      List.enumFrom_map_fst 0 (sortByPath l)
    rw [hfst, sortByPath_length]
    obtain ⟨m, hm'⟩ : ∃ m, l.length = m + 1 := by
      cases hl : l.length with
      | zero => exact absurd (List.length_eq_zero.mp hl) hlne
      | succ m => exact ⟨m, rfl⟩
    rw [hm']
    have hsub : m + 1 - 1 = m := rfl
    rw [hsub]
    simpa using range'_flags m 0
  · have hslne : sortByPath l ≠ [] := by
      intro h
      apply hlne
      have hlen := sortByPath_length l
      rw [h] at hlen
      exact List.length_eq_zero.mp hlen.symm
    refine ⟨hslne, ?_, ?_⟩
    · intro e he
      have hsplit := List.dropLast_append_getLast hslne
      have hpw := sortByPath_pairwise l
      rw [← hsplit, List.pairwise_append] at hpw
      have hmem : e ∈ (sortByPath l).dropLast ++
          [(sortByPath l).getLast hslne] := by
        rw [hsplit]
        exact (sortByPath_perm l).mem_iff.mpr he
      rcases List.mem_append.mp hmem with hd | hl2
      · exact hpw.2.2 e hd _ (List.mem_singleton_self _)
      · rw [List.mem_singleton.mp hl2]
    · have hsplit := List.dropLast_append_getLast hslne
      have hidx : 0 + (sortByPath l).dropLast.length = l.length - 1 := by
        rw [List.length_dropLast, sortByPath_length]
        omega
      have henum : (sortByPath l).enum =
          (sortByPath l).dropLast.enum ++
            [(l.length - 1, (sortByPath l).getLast hslne)] := by
        conv_lhs => rw [← hsplit]
        rw [List.enum_eq_enumFrom, enumFrom_append_singleton, hidx,
          ← List.enum_eq_enumFrom]
      rw [henum, mapOpt_append] at hm
      cases hys : mapOpt
          (fun p => sectionEvents disk p.2 (p.1 == l.length - 1))
          (sortByPath l).dropLast.enum with
      | none => rw [hys] at hm; simp at hm
      | some ys =>
        rw [hys] at hm
        simp only [Option.some_bind] at hm
        have hsingle : mapOpt
            (fun p => sectionEvents disk p.2 (p.1 == l.length - 1))
            [(l.length - 1, (sortByPath l).getLast hslne)] =
            (sectionEvents disk ((sortByPath l).getLast hslne) true).bind
              (fun y => some [y]) := by
          simp [mapOpt]
        rw [hsingle] at hm
        cases hblk : sectionEvents disk ((sortByPath l).getLast hslne)
            true with
        | none =>
          rw [hblk] at hm
          simp at hm
        | some blk =>
          rw [hblk] at hm
          simp only [Option.some_bind, Option.map_some] at hm
          obtain rfl : ys ++ [blk] = blocks := by simpa using hm
          refine ⟨ys.flatten, blk, rfl, ?_⟩
          rw [List.flatten_append]
          simp

/-- Witness for C5 at the example tree: flag sequence `[false, true]`,
true on the section `B_two`, the greatest path. -/
theorem c5_last_flag_witness :
    exTrace.filterMap startFlag =
      List.replicate (exRoot.length - 1) false ++ [true] :=
  (c5_last_flag exampleDisk exRoot exTrace (by decide) (by decide)).1

/-- C7 counterexample: two callback sets that record identical events on
every invocation and differ only in a filesystem side effect of
`section_start` produce different call sequences on the same tree.  The
item listing of a section is read only after the `section_start`
and `section_name` have run, so the items processed *can* depend on
callback side effects — the claim that every listing is snapshotted
before the first callback invocation is false. -/
theorem c7_counterexample :
    (process_manual_fs exampleDisk ([] : List Event) recCallbacks).map
        Prod.fst ≠
      (process_manual_fs exampleDisk ([] : List Event)
        plantingCallbacks).map Prod.fst := by
  decide

theorem processItemsFs_trace (cb : FsCallbacks (List Event))
    (hf : ∀ sd n p k, (cb.process_file sd n p k).1 =
      sd.1 ++ [Event.process_file n p k]) :
    ∀ (files : List FsEntry) (sd sd' : List Event × Disk),
      processItemsFs cb files sd = some sd' →
      ∃ added, sd'.1 = sd.1 ++ added ∧ ∀ e ∈ added, e.isFile = true := by
  intro files
  induction files with
  | nil =>
    intro sd sd' h
    obtain rfl : sd = sd' := by simpa [processItemsFs] using h
    exact ⟨[], by simp, by simp⟩
  | cons f fs ih =>
    intro sd sd' h
    cases h1 : stem_chars f.stem with
    | none => simp [processItemsFs, List.foldlM_cons, h1] at h
    | some ci =>
      obtain ⟨chars, item⟩ := ci
      have hstep : processItemsFs cb (f :: fs) sd =
          processItemsFs cb fs
            (cb.process_file sd (String.mk chars) f.path item) := by
        simp [processItemsFs, List.foldlM_cons, h1]
      rw [hstep] at h
      obtain ⟨added, hadd, hall⟩ := ih _ _ h
      refine ⟨Event.process_file (String.mk chars) f.path item :: added,
        ?_, ?_⟩
      · rw [hadd, hf]
        simp
      · intro e he
        rcases List.mem_cons.mp he with rfl | hmem
        · rfl
        · exact hall e hmem

theorem processSectionFs_trace (cb : FsCallbacks (List Event))
    (hs : ∀ sd b, (cb.section_start sd b).1 =
      sd.1 ++ [Event.section_start b])
    (hn : ∀ sd n k, (cb.section_name sd n k).1 =
      sd.1 ++ [Event.section_name n k])
    (hf : ∀ sd n p k, (cb.process_file sd n p k).1 =
      sd.1 ++ [Event.process_file n p k])
    (he : ∀ sd, (cb.section_end sd).1 = sd.1 ++ [Event.section_end])
    (dir : FsEntry) (isLast : Bool) (sd sd' : List Event × Disk)
    (h : processSectionFs cb dir isLast sd = some sd') :
    ∃ added chars item name, sd'.1 = sd.1 ++ added ∧
      added.filter (fun e => !e.isFile) =
        [Event.section_start isLast, Event.section_name name item,
         Event.section_end] ∧
      stem_chars dir.stem = some (chars, item) ∧
      sectionNameString chars = some name := by
  unfold processSectionFs at h
  cases h1 : stem_chars dir.stem with
  | none => rw [h1] at h; simp at h
  | some ci =>
    obtain ⟨chars, item⟩ := ci
    rw [h1] at h
    simp only [Option.bind_eq_bind, Option.some_bind] at h
    cases h2 : sectionNameString chars with
    | none => rw [h2] at h; simp at h
    | some name =>
      rw [h2] at h
      simp only [Option.some_bind] at h
      cases h3 : (cb.section_name (cb.section_start sd isLast) name
          item).2 dir.path with
      | none => rw [h3] at h; simp at h
      | some files =>
        rw [h3] at h
        simp only [Option.some_bind] at h
        cases h4 : processItemsFs cb (sortByPath files)
            (cb.section_name (cb.section_start sd isLast) name item) with
        | none => rw [h4] at h; simp at h
        | some sd3 =>
          rw [h4] at h
          simp only [Option.some_bind] at h
          obtain rfl : cb.section_end sd3 = sd' := by simpa using h
          obtain ⟨fadded, hfadd, hallf⟩ :=
            processItemsFs_trace cb hf _ _ _ h4
          refine ⟨Event.section_start isLast :: Event.section_name name
              item :: (fadded ++ [Event.section_end]),
            chars, item, name, ?_, ?_, rfl, h2⟩
          · rw [he, hfadd, hn, hs]
            simp
          · have hfil : fadded.filter (fun e => !e.isFile) = [] := by
              rw [List.filter_eq_nil_iff]
              intro e hme
              simp [hallf e hme]
            simp [List.filter_cons, List.filter_append, hfil, Event.isFile]
            exact hallf

theorem foldlM_sectionsFs_skeleton (cb : FsCallbacks (List Event))
    (hs : ∀ sd b, (cb.section_start sd b).1 =
      sd.1 ++ [Event.section_start b])
    (hn : ∀ sd n k, (cb.section_name sd n k).1 =
      sd.1 ++ [Event.section_name n k])
    (hf : ∀ sd n p k, (cb.process_file sd n p k).1 =
      sd.1 ++ [Event.process_file n p k])
    (he : ∀ sd, (cb.section_end sd).1 = sd.1 ++ [Event.section_end])
    (li : Nat) :
    ∀ (xs : List (Nat × FsEntry)) (sd sd' : List Event × Disk),
      xs.foldlM (fun sd p => processSectionFs cb p.2 (p.1 == li) sd) sd =
        some sd' →
      ∃ skels, mapOpt (skelOf li) xs = some skels ∧
        sd'.1.filter (fun e => !e.isFile) =
          sd.1.filter (fun e => !e.isFile) ++ skels.flatten := by
  intro xs
  induction xs with
  | nil =>
    intro sd sd' h
    obtain rfl : sd = sd' := by simpa using h
    exact ⟨[], rfl, by simp⟩
  | cons x xs ih =>
    intro sd sd' h
    rw [List.foldlM_cons] at h
    cases h1 : processSectionFs cb x.2 (x.1 == li) sd with
    | none => rw [h1] at h; simp at h
    | some sd1 =>
      rw [h1] at h
      simp only [Option.bind_eq_bind, Option.some_bind] at h
      obtain ⟨added, chars, item, name, hadd, hfilt, hstem, hname⟩ :=
        processSectionFs_trace cb hs hn hf he x.2 (x.1 == li) sd sd1 h1
      obtain ⟨skels, hmaps, hfin⟩ := ih sd1 sd' h
      have hx : skelOf li x = some [Event.section_start (x.1 == li),
          Event.section_name name item, Event.section_end] := by
        simp [skelOf, hstem, hname]
      refine ⟨[Event.section_start (x.1 == li),
          Event.section_name name item, Event.section_end] :: skels,
        ?_, ?_⟩
      · simp only [mapOpt, hx, hmaps, Option.some_bind,
          Option.bind_eq_bind]
        rfl
      · rw [hfin, hadd]
        simp only [List.filter_append, hfilt, List.flatten_cons]
        rw [List.append_assoc]

/-- C7 (amended): the root listing is read and sorted before any
callback runs, so the section-level call sequence — which sections, in
which order, with which decoded names and which `is_last_section`
flags — is a function of the initial filesystem alone, whatever the
callbacks do to the filesystem.  Only the `process_file` calls can be
affected by callback side effects, because the item listing of each
section is read after the `section_start` and `section_name` calls of
that section. -/
theorem c7_section_skeleton_fixed (disk : Disk)
    (cb : FsCallbacks (List Event))
    (hs : ∀ sd b, (cb.section_start sd b).1 =
      sd.1 ++ [Event.section_start b])
    (hn : ∀ sd n k, (cb.section_name sd n k).1 =
      sd.1 ++ [Event.section_name n k])
    (hf : ∀ sd n p k, (cb.process_file sd n p k).1 =
      sd.1 ++ [Event.process_file n p k])
    (he : ∀ sd, (cb.section_end sd).1 = sd.1 ++ [Event.section_end])
    (tr : List Event) (d' : Disk)
    (h : process_manual_fs disk [] cb = some (tr, d')) :
    sectionSkeleton disk = some (tr.filter (fun e => !e.isFile)) := by
  unfold process_manual_fs at h
  unfold sectionSkeleton
  cases hroot : disk manualRoot with
  | none => rw [hroot] at h; simp at h
  | some l =>
    rw [hroot] at h
    simp only [Option.bind_eq_bind, Option.some_bind] at h ⊢
    cases hn2 : usizeSubOne (sortByPath l).length with
    | none => rw [hn2] at h; simp at h
    | some li =>
      rw [hn2] at h
      simp only [Option.some_bind] at h ⊢
      obtain ⟨skels, hmaps, hfin⟩ :=
        foldlM_sectionsFs_skeleton cb hs hn hf he li
          (sortByPath l).enum ([], disk) (tr, d') h
      rw [hmaps]
      have hfin2 : tr.filter (fun e => !e.isFile) = skels.flatten := by
        simpa using hfin
      rw [hfin2]
      rfl

/-- Witness for C7 (amended): the recording callbacks on the example
tree. -/
theorem c7_section_skeleton_fixed_witness :
    sectionSkeleton exampleDisk =
      some (exTrace.filter (fun e => !e.isFile)) :=
  c7_section_skeleton_fixed exampleDisk recCallbacks
    (fun _ _ => rfl) (fun _ _ _ => rfl) (fun _ _ _ _ => rfl) (fun _ => rfl)
    exTrace exampleDisk (by rfl)
